import Mathlib

/-!
Shallow embedding of `set.go` (package `set`).

The Go type `Set[T]` is a struct holding a single field `m : map[T]bool`.
In Go, a map variable is a reference into the heap: copying the struct
copies the reference, not the map. Every method of `Set` has a VALUE
receiver, so each call runs on a copy of the struct that still points at
the same heap map. Mutations through the reference (`s.m[v] = true`,
`delete(s.m, v)`) are visible to the caller; reassigning the field
(`s.m = make(map[T]bool)` in `Clear`) rebinds only the local copy and is
invisible to the caller.

We model this with an explicit heap: `Heap T` maps addresses to Go maps,
a `GoSet` holds an optional address (`none` is the nil map of the zero
value `Set[T]`), and each method is a function threading the heap.
A Go map `map[T]bool` is modelled as an association list of key/value
entries; writes update an existing entry in place or append a fresh one,
which keeps keys distinct, and reads return the stored Bool or the zero
value `false` when the key is absent, exactly as in Go. Iterating a Go
map yields its keys in an unspecified order; the entry order of the
association list realises one admissible order.

`encoding/json` is external to the repository; it enters the model as a
tree type `Json` together with an element encoder (for `json.Marshal` of
a slice) and a decoder `Json → Except String (List T)` standing for
`json.Unmarshal(data, &values)`, which fails exactly on data that is not
a JSON array of T. A Go panic (write to a nil map) is modelled as the
`none` outcome of an `Option`.
-/

set_option linter.unusedSectionVars false

namespace SetGo

variable {T : Type} [DecidableEq T]

/-- A Go `map[T]bool`: an association list of key/entry pairs. -/
abbrev GoMap (T : Type) := List (T × Bool)

/-- The keys of a Go map, in iteration order. -/
def mapKeys (m : GoMap T) : List T := m.map Prod.fst

/-- `m[k] = b` in Go: overwrite the entry for `k` if present, otherwise add one. -/
def mapInsert (m : GoMap T) (k : T) (b : Bool) : GoMap T :=
  match m with
  | [] => [(k, b)]
  | (k', b') :: rest => if k' = k then (k, b) :: rest else (k', b') :: mapInsert rest k b

/-- `m[k]` read in Go: the stored value, or the zero value `false` when absent. -/
def mapRead (m : GoMap T) (k : T) : Bool :=
  match m with
  | [] => false
  | (k', b') :: rest => if k' = k then b' else mapRead rest k

/-- `delete(m, k)` in Go: remove the entry for `k` if present. -/
def mapErase (m : GoMap T) (k : T) : GoMap T :=
  match m with
  | [] => []
  | (k', b') :: rest => if k' = k then mapErase rest k else (k', b') :: mapErase rest k

/-- The heap of allocated Go maps: a bump allocator over addresses. -/
structure Heap (T : Type) where
  next : Nat
  store : Nat → GoMap T

/-- `make(map[T]bool)`: allocate a fresh empty map, returning its address. -/
def Heap.alloc (h : Heap T) : Nat × Heap T :=
  (h.next, ⟨h.next + 1, fun a => if a = h.next then [] else h.store a⟩)

/-- Replace the map stored at address `a`. -/
def Heap.write (h : Heap T) (a : Nat) (m : GoMap T) : Heap T :=
  ⟨h.next, fun b => if b = a then m else h.store b⟩

/-- A heap with nothing allocated yet. -/
def emptyHeap : Heap T := ⟨0, fun _ => []⟩

/-- The struct `Set[T] { m map[T]bool }`: `m` is a map reference, `none` when nil. -/
structure GoSet where
  m : Option Nat
deriving DecidableEq

/-- The zero value `Set[T]` in Go: its internal map is nil. -/
def zeroSet : GoSet := ⟨none⟩

/-- `Empty` — `return Set[T]{m: make(map[T]bool)}`. -/
def Empty (h : Heap T) : GoSet × Heap T :=
  let (a, h') := h.alloc
  (⟨some a⟩, h')

/-- The loop of `Append`: `for _, v := range values { s.m[v] = true }`. -/
def appendLoop (a : Nat) (values : List T) (h : Heap T) : Heap T :=
  match values with
  | [] => h
  | v :: rest => appendLoop a rest (h.write a (mapInsert (h.store a) v true))

/-- `Append` — writes each value into the shared map. Writing to a nil map
panics in Go, modelled as the `none` outcome (no write happens on an empty
`values`, hence no panic then). -/
def Append (s : GoSet) (values : List T) (h : Heap T) : Option (Heap T) :=
  match s.m with
  | some a => some (appendLoop a values h)
  | none =>
    match values with
    | [] => some h
    | _ :: _ => none

/-- `Of` — `s := Empty[T](); s.Append(values...); return s`. -/
def Of (values : List T) (h : Heap T) : GoSet × Heap T :=
  let (s, h1) := Empty h
  match Append s values h1 with
  | some h2 => (s, h2)
  | none => (s, h1)

/-- The map a set currently refers to; a nil map reads as empty in Go. -/
def mapOf (s : GoSet) (h : Heap T) : GoMap T :=
  match s.m with
  | none => []
  | some a => h.store a

/-- `Len` — `return len(s.m)`. -/
def Len (s : GoSet) (h : Heap T) : Nat := (mapOf s h).length

/-- `Contains` — `return s.m[val]`: the stored Bool, `false` when absent. -/
def Contains (s : GoSet) (val : T) (h : Heap T) : Bool := mapRead (mapOf s h) val

/-- The loop of `Delete`: `for _, v := range values { delete(s.m, v) }`.
`delete` on a nil map is a no-op in Go, so `Delete` never panics. -/
def deleteLoop (a : Nat) (values : List T) (h : Heap T) : Heap T :=
  match values with
  | [] => h
  | v :: rest => deleteLoop a rest (h.write a (mapErase (h.store a) v))

/-- `Delete` — removes each value from the shared map. -/
def Delete (s : GoSet) (values : List T) (h : Heap T) : Heap T :=
  match s.m with
  | none => h
  | some a => deleteLoop a values h

/-- `Clear` — `s.m = make(map[T]bool)`. The receiver is a COPY of the
struct: the fresh map is allocated and assigned to the copy, which is
discarded when the method returns, so the caller still sees the old map. -/
def Clear (s : GoSet) (h : Heap T) : Heap T :=
  let (a, h') := h.alloc
  let receiverCopy : GoSet := { s with m := some a }
  let _ := receiverCopy
  h'

/-- `Slice` — `values := make([]T, len(s.m))` (a slice of `len` ZERO values,
not a capacity reservation) `; for t := range s.m { values = append(values, t) }`. -/
def Slice [Inhabited T] (s : GoSet) (h : Heap T) : List T :=
  let values := List.replicate (mapOf s h).length (default : T)
  values ++ mapKeys (mapOf s h)

/-- The elements of the set: the keys of its backing map (the data model
identifies membership with key presence). -/
def elems (s : GoSet) (h : Heap T) : List T := mapKeys (mapOf s h)

/-- A JSON document tree. -/
inductive Json where
  | null : Json
  | bool : Bool → Json
  | num : Int → Json
  | str : String → Json
  | arr : List Json → Json

/-- `MarshalJSON` — `return json.Marshal(s.Slice())`: a JSON array holding
the encoding of each entry of `s.Slice()`, in order. -/
def MarshalJSON [Inhabited T] (enc : T → Json) (s : GoSet) (h : Heap T) : Json :=
  Json.arr ((Slice s h).map enc)

/-- `UnmarshalJSON` — `s.Clear(); var values []T; if err := json.Unmarshal(data,
&values); err != nil { return err }; s.Append(values...); return nil`.
`dec` stands for `json.Unmarshal` into `[]T`. The result pairs the heap after
the call with the returned error (`none` for nil); the outer `none` is a panic. -/
def UnmarshalJSON (dec : Json → Except String (List T)) (s : GoSet) (data : Json)
    (h : Heap T) : Option (Heap T × Option String) :=
  let h1 := Clear s h
  match dec data with
  | .error e => some (h1, some e)
  | .ok values =>
    match Append s values h1 with
    | some h2 => some (h2, none)
    | none => none

/-- Decode a list of JSON values as Go ints, as `json.Unmarshal` would. -/
def decodeIntList : List Json → Except String (List Int)
  | [] => .ok []
  | Json.num n :: rest => (decodeIntList rest).map (fun l => n :: l)
  | _ :: _ => .error "json: cannot unmarshal value into Go value of type int"

/-- `json.Unmarshal(data, &values)` for `values []int`: succeeds exactly on a
JSON array whose entries are all numbers. -/
def decodeIntArray : Json → Except String (List Int)
  | Json.arr js => decodeIntList js
  | _ => .error "json: cannot unmarshal value into Go value of type []int"

/-- Syntactic check: is this JSON document an array of numbers? -/
def isIntArrayJson : Json → Bool
  | Json.arr js => js.all (fun j => match j with | Json.num _ => true | _ => false)
  | _ => false

/-- All entries of a map carry the value `true` — the invariant of every map
the code ever builds, since only `true` is ever stored. -/
def valuesTrue (m : GoMap T) : Prop := ∀ p ∈ m, p.2 = true

instance (m : GoMap T) : Decidable (valuesTrue m) :=
  inferInstanceAs (Decidable (∀ p ∈ m, p.2 = true))

/-- A set of ints built from a fresh heap, for concrete evaluations. -/
def sampleOf (values : List Int) : GoSet × Heap Int := Of values emptyHeap

/-! ### Lemmas about the heap -/

theorem store_write_same (h : Heap T) (a : Nat) (m : GoMap T) :
    (h.write a m).store a = m := by
  simp [Heap.write]

theorem store_write_other (h : Heap T) (a b : Nat) (m : GoMap T) (hba : b ≠ a) :
    (h.write a m).store b = h.store b := by
  simp [Heap.write, hba]

theorem write_self (h : Heap T) (a : Nat) : h.write a (h.store a) = h := by
  cases h with
  | mk next store =>
    simp only [Heap.write, Heap.mk.injEq, true_and]
    funext b
    by_cases hb : b = a <;> simp [hb]

/-! ### Lemmas about the Go map operations -/

theorem mapKeys_nil : mapKeys ([] : GoMap T) = [] := rfl

theorem mapKeys_cons (p : T × Bool) (rest : GoMap T) :
    mapKeys (p :: rest) = p.1 :: mapKeys rest := rfl

theorem length_mapKeys (m : GoMap T) : (mapKeys m).length = m.length :=
  List.length_map m Prod.fst

theorem mapKeys_mapInsert (m : GoMap T) (k : T) (b : Bool) :
    mapKeys (mapInsert m k b) =
      if k ∈ mapKeys m then mapKeys m else mapKeys m ++ [k] := by
  induction m with
  | nil => simp [mapInsert, mapKeys]
  | cons p rest ih =>
    obtain ⟨k', b'⟩ := p
    by_cases hk : k' = k
    · subst hk
      simp [mapInsert, mapKeys_cons]
    · have hk' : ¬(k = k') := fun h => hk h.symm
      by_cases hmem : k ∈ mapKeys rest <;>
        simp [mapInsert, hk, mapKeys_cons, ih, hmem, hk']

theorem toFinset_mapKeys_mapInsert (m : GoMap T) (k : T) (b : Bool) :
    (mapKeys (mapInsert m k b)).toFinset = insert k (mapKeys m).toFinset := by
  rw [mapKeys_mapInsert]
  by_cases hmem : k ∈ mapKeys m
  · simp [hmem, Finset.insert_eq_self.mpr (List.mem_toFinset.mpr hmem)]
  · rw [if_neg hmem, List.toFinset_append, Finset.insert_eq, Finset.union_comm]
    simp

theorem nodup_mapKeys_mapInsert (m : GoMap T) (k : T) (b : Bool)
    (hnd : (mapKeys m).Nodup) : (mapKeys (mapInsert m k b)).Nodup := by
  rw [mapKeys_mapInsert]
  by_cases hmem : k ∈ mapKeys m
  · simpa [hmem] using hnd
  · simpa [hmem, List.nodup_append] using hnd

theorem valuesTrue_mapInsert (m : GoMap T) (k : T) (hv : valuesTrue m) :
    valuesTrue (mapInsert m k true) := by
  induction m with
  | nil => intro p hp; simp [mapInsert] at hp; simp [hp]
  | cons q rest ih =>
    obtain ⟨k', b'⟩ := q
    have hq : b' = true := hv (k', b') (List.mem_cons_self _ _)
    have hrest : valuesTrue rest := fun p hp => hv p (List.mem_cons_of_mem _ hp)
    intro p hp
    by_cases hk : k' = k
    · simp only [mapInsert, if_pos hk] at hp
      rcases List.mem_cons.mp hp with h | h
      · simp [h]
      · exact hrest p h
    · simp only [mapInsert, if_neg hk] at hp
      rcases List.mem_cons.mp hp with h | h
      · simp [h, hq]
      · exact ih hrest p h

theorem mapRead_mapInsert_self (m : GoMap T) (k : T) :
    mapRead (mapInsert m k true) k = true := by
  induction m with
  | nil => simp [mapInsert, mapRead]
  | cons p rest ih =>
    obtain ⟨k', b'⟩ := p
    by_cases hk : k' = k <;> simp [mapInsert, mapRead, hk, ih]

theorem mem_mapKeys_of_mapRead_true (m : GoMap T) (k : T)
    (hr : mapRead m k = true) : k ∈ mapKeys m := by
  induction m with
  | nil => simp [mapRead] at hr
  | cons p rest ih =>
    obtain ⟨k', b'⟩ := p
    by_cases hk : k' = k
    · simp [mapKeys_cons, hk]
    · rw [mapRead, if_neg hk] at hr
      exact List.mem_cons_of_mem _ (ih hr)

theorem mapRead_true_of_mem_mapKeys (m : GoMap T) (k : T) (hv : valuesTrue m)
    (hmem : k ∈ mapKeys m) : mapRead m k = true := by
  induction m with
  | nil => simp [mapKeys] at hmem
  | cons p rest ih =>
    obtain ⟨k', b'⟩ := p
    have hq : b' = true := hv (k', b') (List.mem_cons_self _ _)
    have hrest : valuesTrue rest := fun p hp => hv p (List.mem_cons_of_mem _ hp)
    by_cases hk : k' = k
    · simp [mapRead, hk, hq]
    · rw [mapKeys_cons] at hmem
      rcases List.mem_cons.mp hmem with h | h
      · exact absurd h.symm hk
      · rw [mapRead, if_neg hk]
        exact ih hrest h

theorem mapInsert_eq_self (m : GoMap T) (k : T) (hv : valuesTrue m)
    (hmem : k ∈ mapKeys m) : mapInsert m k true = m := by
  induction m with
  | nil => simp [mapKeys] at hmem
  | cons p rest ih =>
    obtain ⟨k', b'⟩ := p
    have hq : b' = true := hv (k', b') (List.mem_cons_self _ _)
    have hrest : valuesTrue rest := fun p hp => hv p (List.mem_cons_of_mem _ hp)
    by_cases hk : k' = k
    · simp [mapInsert, hk, hq]
    · rw [mapKeys_cons] at hmem
      rcases List.mem_cons.mp hmem with h | h
      · exact absurd h.symm hk
      · simp [mapInsert, hk, ih hrest h]

theorem mapRead_mapErase_self (m : GoMap T) (k : T) :
    mapRead (mapErase m k) k = false := by
  induction m with
  | nil => simp [mapErase, mapRead]
  | cons p rest ih =>
    obtain ⟨k', b'⟩ := p
    by_cases hk : k' = k <;> simp [mapErase, mapRead, hk, ih]

theorem mapErase_eq_self (m : GoMap T) (k : T) (hmem : k ∉ mapKeys m) :
    mapErase m k = m := by
  induction m with
  | nil => rfl
  | cons p rest ih =>
    obtain ⟨k', b'⟩ := p
    have hk : k' ≠ k := fun h => hmem (by simp [mapKeys_cons, h])
    have hrest : k ∉ mapKeys rest := fun h => hmem (by simp [mapKeys_cons, h])
    rw [mapErase, if_neg hk, ih hrest]

/-! ### The loops of Append and Delete, seen through the heap -/

theorem appendLoop_store_same (a : Nat) (values : List T) (h : Heap T) :
    (appendLoop a values h).store a =
      List.foldl (fun m v => mapInsert m v true) (h.store a) values := by
  induction values generalizing h with
  | nil => rfl
  | cons v rest ih => simp [appendLoop, List.foldl_cons, ih, store_write_same]

theorem deleteLoop_store_same (a : Nat) (values : List T) (h : Heap T) :
    (deleteLoop a values h).store a =
      List.foldl (fun m v => mapErase m v) (h.store a) values := by
  induction values generalizing h with
  | nil => rfl
  | cons v rest ih => simp [deleteLoop, List.foldl_cons, ih, store_write_same]

theorem foldl_mapInsert_toFinset (values : List T) (m : GoMap T) :
    (mapKeys (List.foldl (fun mm v => mapInsert mm v true) m values)).toFinset
      = (mapKeys m).toFinset ∪ values.toFinset := by
  induction values generalizing m with
  | nil => simp
  | cons v rest ih =>
    rw [List.foldl_cons, ih, toFinset_mapKeys_mapInsert, List.toFinset_cons,
      Finset.insert_union, Finset.union_insert]

theorem foldl_mapInsert_nodup (values : List T) (m : GoMap T)
    (hnd : (mapKeys m).Nodup) :
    (mapKeys (List.foldl (fun mm v => mapInsert mm v true) m values)).Nodup := by
  induction values generalizing m with
  | nil => exact hnd
  | cons v rest ih =>
    rw [List.foldl_cons]
    exact ih _ (nodup_mapKeys_mapInsert m v true hnd)

theorem foldl_mapInsert_valuesTrue (values : List T) (m : GoMap T)
    (hv : valuesTrue m) :
    valuesTrue (List.foldl (fun mm v => mapInsert mm v true) m values) := by
  induction values generalizing m with
  | nil => exact hv
  | cons v rest ih =>
    rw [List.foldl_cons]
    exact ih _ (valuesTrue_mapInsert m v hv)

theorem foldl_mapInsert_length (values : List T) (m : GoMap T)
    (hnd : (mapKeys m).Nodup) :
    (List.foldl (fun mm v => mapInsert mm v true) m values).length
      = ((mapKeys m).toFinset ∪ values.toFinset).card := by
  rw [← length_mapKeys,
    ← List.toFinset_card_of_nodup (foldl_mapInsert_nodup values m hnd),
    foldl_mapInsert_toFinset]

/-! ### Facts about the constructors -/

theorem Empty_fst (h : Heap T) : (Empty h).1 = ⟨some h.next⟩ := rfl

theorem Of_fst (values : List T) (h : Heap T) : (Of values h).1 = ⟨some h.next⟩ := rfl

theorem mapOf_Of (values : List T) (h : Heap T) :
    mapOf (Of values h).1 (Of values h).2
      = List.foldl (fun mm v => mapInsert mm v true) [] values := by
  show ((appendLoop h.next values (h.alloc).2).store h.next) = _
  rw [appendLoop_store_same]
  have : ((h.alloc).2).store h.next = [] := by simp [Heap.alloc]
  rw [this]

/-! ### The decoder succeeds exactly on JSON arrays of numbers -/

/-- Whether an `Except` result is a success. -/
def exceptOk {E A : Type} : Except E A → Bool
  | .ok _ => true
  | .error _ => false

theorem exceptOk_map {E A B : Type} (f : A → B) (e : Except E A) :
    exceptOk (e.map f) = exceptOk e := by
  cases e <;> rfl

theorem decodeIntList_ok (js : List Json) :
    exceptOk (decodeIntList js)
      = js.all (fun j => match j with | Json.num _ => true | _ => false) := by
  induction js with
  | nil => rfl
  | cons j rest ih =>
    cases j with
    | num n => simpa [decodeIntList, List.all_cons, exceptOk_map] using ih
    | null => rfl
    | bool b => rfl
    | str t => rfl
    | arr js' => rfl

theorem decodeIntArray_ok (data : Json) :
    exceptOk (decodeIntArray data) = isIntArrayJson data := by
  cases data with
  | arr js => exact decodeIntList_ok js
  | null => rfl
  | bool b => rfl
  | num n => rfl
  | str t => rfl

/-! ### The claims -/

/-- C1 (code_bug evaluation): `UnmarshalJSON` does NOT clear the previous
contents of the caller visible set, contrary to its own doc comment
("The previous content of s is cleared"): `s.Clear()` runs on a receiver
copy. At the failing input — a set holding `1`, data that is not a JSON
array — the call returns an error, yet afterwards the set still has length
1 and still contains `1`: the pre-call state, not the cleared state. -/
theorem unmarshal_failure_keeps_old_contents :
    (UnmarshalJSON decodeIntArray (sampleOf [1]).1 (Json.str "oops") (sampleOf [1]).2).map
        (fun r => (r.2.isSome, Len (sampleOf [1]).1 r.1, Contains (sampleOf [1]).1 1 r.1))
      = some (true, 1, true) := rfl

/-- C2 (code_bug evaluation): `Slice` pre-sizes with `make([]T, len(s.m))`
and then appends, so the result carries `len` leading zero values. For the
set holding exactly `1`, `Slice` returns `[0, 1]`: the entry `0` is not an
element of the set (`Contains` rejects it), refuting "exactly the current
elements, no extra entries". -/
theorem slice_has_extra_zero_entries :
    Slice (sampleOf [1]).1 (sampleOf [1]).2 = [0, 1] ∧
    elems (sampleOf [1]).1 (sampleOf [1]).2 = [1] ∧
    Contains (sampleOf [1]).1 0 (sampleOf [1]).2 = false :=
  ⟨rfl, rfl, rfl⟩

/-- C3 (code_bug evaluation): `Clear` assigns a fresh map to the map field
of a receiver COPY, so the caller visible set keeps its old map, contrary
to its own doc comment ("Clear removes all elements from s"). For the set
holding `1`, `Len` after `Clear` is still 1, not 0. -/
theorem clear_then_len_still_one :
    Len (sampleOf [1]).1 (sampleOf [1]).2 = 1 ∧
    Len (sampleOf [1]).1 (Clear (sampleOf [1]).1 (sampleOf [1]).2) = 1 :=
  ⟨rfl, rfl⟩

/-- C4 (code_bug evaluation): the JSON round trip fails. The set holding
exactly `1` marshals (through the buggy `Slice`) to the array `[0, 1]`;
unmarshalling that into a freshly created empty set succeeds but yields a
set whose membership is `{0, 1}`, not `{1}`. -/
theorem roundtrip_membership_differs :
    elems (sampleOf [1]).1 (sampleOf [1]).2 = [1] ∧
    (UnmarshalJSON decodeIntArray (Empty (sampleOf [1]).2).1
          (MarshalJSON Json.num (sampleOf [1]).1 (sampleOf [1]).2)
          (Empty (sampleOf [1]).2).2).map
        (fun r => (r.2.isSome, elems (Empty (sampleOf [1]).2).1 r.1))
      = some (false, [0, 1]) :=
  ⟨rfl, rfl⟩

/-- C5: for a set whose map was initialized (any address `a`), `UnmarshalJSON`
returns an error exactly when the data is not a JSON array of numbers, the
returned error is exactly the underlying decode failure (the code propagates
it unchanged), and no other operation fails: `Append` on such a set always
succeeds, and the other operations are total functions by construction. -/
theorem unmarshal_error_iff_bad_input (a : Nat) (data : Json) (h : Heap Int) :
    ∃ h2 err, UnmarshalJSON decodeIntArray ⟨some a⟩ data h = some (h2, err) ∧
      err.isSome = !(isIntArrayJson data) ∧
      (∀ e, err = some e ↔ decodeIntArray data = Except.error e) ∧
      ∀ vs, (Append (⟨some a⟩ : GoSet) vs h).isSome = true := by
  have hok := decodeIntArray_ok data
  cases hd : decodeIntArray data with
  | error e0 =>
    rw [hd] at hok
    refine ⟨Clear ⟨some a⟩ h, some e0, ?_, ?_, ?_, fun vs => rfl⟩
    · simp [UnmarshalJSON, hd]
    · simp only [exceptOk] at hok
      simp [← hok]
    · intro e
      simp [hd]
  | ok vs0 =>
    rw [hd] at hok
    refine ⟨appendLoop a vs0 (Clear ⟨some a⟩ h), none, ?_, ?_, ?_, fun vs => rfl⟩
    · simp [UnmarshalJSON, hd, Append]
    · simp only [exceptOk] at hok
      simp [← hok]
    · intro e
      simp [hd]

/-- C6: `Contains` returns `true` exactly for the current elements of the
set (the keys of its backing map), hence `false` for everything else,
values never inserted included; it is a total function, so it cannot
error on absent values. The hypothesis is the invariant of every map the
code builds: only `true` is ever stored. -/
theorem contains_iff_mem (s : GoSet) (x : T) (h : Heap T)
    (hv : valuesTrue (mapOf s h)) :
    Contains s x h = true ↔ x ∈ elems s h := by
  constructor
  · exact fun hc => mem_mapKeys_of_mapRead_true _ _ hc
  · exact fun hm => mapRead_true_of_mem_mapKeys _ _ hv hm

/-- Witness for C6 at a concrete input. -/
theorem contains_iff_mem_witness :
    Contains (sampleOf [1, 2]).1 2 (sampleOf [1, 2]).2 = true
      ↔ 2 ∈ elems (sampleOf [1, 2]).1 (sampleOf [1, 2]).2 :=
  contains_iff_mem (sampleOf [1, 2]).1 2 (sampleOf [1, 2]).2 (by decide)

/-- C7: the set built by `Of` from a list of values has `Len` equal to the
number of distinct values in the list: duplicates collapse to one entry. -/
theorem of_len_distinct (values : List T) (h : Heap T) :
    Len (Of values h).1 (Of values h).2 = values.toFinset.card := by
  rw [Len, mapOf_Of, foldl_mapInsert_length values [] (by simp [mapKeys])]
  simp [mapKeys]

/-- C8: after `Append [x]` on a set with an initialized map (any address,
any prior contents), `Contains x` is `true`; and if `x` was already
present, `Append [x]` returns the heap unchanged — the set (indeed the
whole heap) is unaffected, so insertion is idempotent per value. -/
theorem append_then_contains (a : Nat) (x : T) (h : Heap T) :
    (∃ h2, Append ⟨some a⟩ [x] h = some h2 ∧ Contains ⟨some a⟩ x h2 = true) ∧
    (valuesTrue (h.store a) → Contains ⟨some a⟩ x h = true →
      Append ⟨some a⟩ [x] h = some h) := by
  constructor
  · refine ⟨h.write a (mapInsert (h.store a) x true), rfl, ?_⟩
    show mapRead ((h.write a (mapInsert (h.store a) x true)).store a) x = true
    rw [store_write_same]
    exact mapRead_mapInsert_self _ _
  · intro hv hc
    have hmem : x ∈ mapKeys (h.store a) := mem_mapKeys_of_mapRead_true _ _ hc
    show some (appendLoop a [x] h) = some h
    rw [show appendLoop a [x] h = h.write a (mapInsert (h.store a) x true) from rfl,
      mapInsert_eq_self _ _ hv hmem, write_self]

/-- C9: after `Delete [x]` on any set, `Contains x` is `false` (for the
nil map, `Delete` is a no-op and `Contains` already reads `false`); and
deleting a value that is absent returns the heap unchanged — in
particular `Len` is unchanged — and `Delete` signals no error. -/
theorem delete_then_not_contains (s : GoSet) (x : T) (h : Heap T) :
    Contains s x (Delete s [x] h) = false ∧
    (valuesTrue (mapOf s h) → Contains s x h = false → Delete s [x] h = h) := by
  obtain ⟨m⟩ := s
  cases m with
  | none => exact ⟨rfl, fun _ _ => rfl⟩
  | some a =>
    constructor
    · show mapRead ((deleteLoop a [x] h).store a) x = false
      rw [show deleteLoop a [x] h = h.write a (mapErase (h.store a) x) from rfl,
        store_write_same]
      exact mapRead_mapErase_self _ _
    · intro hv hc
      have hv' : valuesTrue (h.store a) := hv
      have hc' : mapRead (h.store a) x = false := hc
      have hmem : x ∉ mapKeys (h.store a) := fun hmem => by
        rw [mapRead_true_of_mem_mapKeys _ _ hv' hmem] at hc'
        exact absurd hc' (by simp)
      show deleteLoop a [x] h = h
      rw [show deleteLoop a [x] h = h.write a (mapErase (h.store a) x) from rfl,
        mapErase_eq_self _ _ hmem, write_self]

/-- C10: sets built by `Empty` or `Of` carry an initialized (non-nil) map,
so `Append` on them always succeeds; the zero value `Set[T]` carries a nil
map, and `Append` of any nonempty list of values on it panics on the first
map write (the `none` outcome). -/
theorem append_nil_map_panics (h : Heap T) (values rest vs : List T) (v : T) :
    (Append (Empty h).1 values (Empty h).2).isSome = true ∧
    (Append (Of vs h).1 values (Of vs h).2).isSome = true ∧
    Append zeroSet (v :: rest) h = none :=
  ⟨rfl, rfl, rfl⟩

end SetGo
